import Mathlib

/-!
Verification development for `src/gtfs/bus2train/station_access.py`.

The Python module computes, for each bus stop near a train station, the
frequency-weighted average travel time to that station.  Below we give a
shallow embedding of its data model and of the pipeline stages and the
downstream result filter, and prove the stated properties about them.

Conventions of the embedding:
* Python dicts that preserve insertion order are modelled as association
  lists with unique keys; `setdefault`-style updates become in-place
  update of the first matching entry, with new keys appended at the end.
* Dates are modelled as integers (ordinal day numbers); day-of-week is
  taken modulo 7.
* Python's float arithmetic in the weighted averages is modelled with
  exact rationals (`Rat`); all other arithmetic is integer arithmetic in
  the source and is modelled with `Nat`/`Int`.
* The `assert` in stage 3 and the unguarded `next()` on an iterator are
  modelled by an `Except` result with a dedicated error value each.
-/

/-- An entry of the externally precomputed stop-to-nearest-station distance
table (`load_train_station_distance`): nearest station id and straight-line
distance in meters. -/
structure StationAndDistance where
  station_id : Nat
  distance : Int
deriving DecidableEq, Repr, Inhabited

/-- One element of a route story (`route_stories.txt`): stop id, ordinal
stop sequence, arrival offset in seconds from the start of the pattern. -/
structure RouteStoryStop where
  stop_id : Nat
  stop_sequence : Nat
  arrival_offset : Int
deriving DecidableEq, Repr, Inhabited

/-- A route story ("canonical stop pattern"): an id and its ordered stops. -/
structure RouteStory where
  route_story_id : Nat
  stops : List RouteStoryStop
deriving DecidableEq, Repr, Inhabited

/-- A GTFS service calendar window (only the fields `station_access.py`
reads: the overall start and end dates). -/
structure Service where
  start_date : Int
  end_date : Int
deriving DecidableEq, Repr, Inhabited

/-- A GTFS route (only the fields `station_access.py` reads). -/
structure Route where
  route_id : Nat
  line_number : String
deriving DecidableEq, Repr, Inhabited

/-- A GTFS trip together with the route story resolved for it through
`trips_to_route_stories` (the Python code looks the story up by trip id;
we carry the resolved story id on the trip). -/
structure Trip where
  trip_id : Nat
  route : Route
  service : Service
  route_story_id : Nat
deriving DecidableEq, Repr, Inhabited

/-- The trip-count accumulator mixin `StationAccessFinder.HasFrequency`:
weekday and weekend trip counters. -/
structure HasFrequency where
  weekday_trips : Nat
  weekend_trips : Nat
deriving DecidableEq, Repr, Inhabited

/-- `HasFrequency.total_trips`. -/
def HasFrequency.total_trips (c : HasFrequency) : Nat :=
  c.weekday_trips + c.weekend_trips

/-- `HasFrequency.add_trip_counts`: pairwise addition of the counters. -/
def HasFrequency.add_trip_counts (c other : HasFrequency) : HasFrequency :=
  { weekday_trips := c.weekday_trips + other.weekday_trips
    weekend_trips := c.weekend_trips + other.weekend_trips }

/-- Stage 1, `StationAccessFinder.find_station_stops`: keep the entries of
the distance table whose distance is strictly below the threshold, and
(unless `include_trains`) drop entries whose stop is its own nearest
station.  The Python dict is modelled as an association list. -/
def find_station_stops (station_distance : List (Nat × StationAndDistance))
    (station_stop_distance : Int) (include_trains : Bool) :
    List (Nat × StationAndDistance) :=
  let near_stations :=
    station_distance.filter (fun p => p.2.distance < station_stop_distance)
  if include_trains then near_stations
  else near_stations.filter (fun p => p.1 ≠ p.2.station_id)

/-- The station stops of one route story: the stops whose id is a key of
`stops_near_stations` (the comprehension inside stage 2). -/
def stationStopsOf (stops_near_stations : List (Nat × StationAndDistance))
    (rs : RouteStory) : List RouteStoryStop :=
  rs.stops.filter (fun stop => (stops_near_stations.lookup stop.stop_id).isSome)

/-- `StationAccessFinder.ExtendedRouteStory` as it stands after stage 2:
the route story and its station-stop subsequence. -/
structure ExtendedRouteStory where
  route_story : RouteStory
  station_stops : List RouteStoryStop
deriving DecidableEq, Repr, Inhabited

/-- Stage 2, `StationAccessFinder.route_story_train_station_stops`: wrap
every route story with its station stops and keep only those with at least
one station stop. -/
def route_story_train_station_stops
    (stops_near_stations : List (Nat × StationAndDistance))
    (route_stories : List RouteStory) : List ExtendedRouteStory :=
  (route_stories.map
      (fun rs => ExtendedRouteStory.mk rs (stationStopsOf stops_near_stations rs))).filter
    (fun e => e.station_stops.length > 0)

/-- The two ways stage 3 can abort: `stopIteration` models the unguarded
`next(station_stops_iter)` on an empty iterator, `sortProblem` models the
failing `assert ..., 'sort problem!'`. -/
inductive Stage3Error where
  | stopIteration
  | sortProblem
deriving DecidableEq, Repr

/-- The scan loop of stage 3 in forward mode (`to_station = True`):
`next_station` is the cursor into the station-stop subsequence and `rest`
the not-yet-consumed part of that subsequence.  When the current stop's
sequence number exceeds the cursor's, the cursor advances once (breaking
out of the loop when the subsequence is exhausted); then the assertion
`next_station.arrival_offset >= stop.arrival_offset` is checked and the
pair appended. -/
def forwardLoop (stops : List RouteStoryStop) (next_station : RouteStoryStop)
    (rest : List RouteStoryStop) :
    Except Stage3Error (List (RouteStoryStop × RouteStoryStop)) :=
  match stops with
  | [] => .ok []
  | stop :: more =>
    if stop.stop_sequence > next_station.stop_sequence then
      match rest with
      | [] => .ok []
      | ns :: rest2 =>
        if ns.arrival_offset ≥ stop.arrival_offset then
          (forwardLoop more ns rest2).map (fun l => (stop, ns) :: l)
        else .error .sortProblem
    else
      if next_station.arrival_offset ≥ stop.arrival_offset then
        (forwardLoop more next_station rest).map (fun l => (stop, next_station) :: l)
      else .error .sortProblem

/-- Stage 3 forward, `StationAccessFinder.route_story_stops_to_stations`
for one extended route story: the initial `next(station_stops_iter)` is
unguarded, so an empty station-stop list raises `StopIteration`. -/
def route_story_stops_to_stations (e : ExtendedRouteStory) :
    Except Stage3Error (List (RouteStoryStop × RouteStoryStop)) :=
  match e.station_stops with
  | [] => .error .stopIteration
  | s :: rest => forwardLoop e.route_story.stops s rest

/-- The scan loop of stage 3 in backward mode (`to_station = False`): the
same loop over the reversed stop list and reversed station-stop
subsequence, with the comparison and the assertion mirrored. -/
def backwardLoop (stops : List RouteStoryStop) (next_station : RouteStoryStop)
    (rest : List RouteStoryStop) :
    Except Stage3Error (List (RouteStoryStop × RouteStoryStop)) :=
  match stops with
  | [] => .ok []
  | stop :: more =>
    if stop.stop_sequence < next_station.stop_sequence then
      match rest with
      | [] => .ok []
      | ns :: rest2 =>
        if ns.arrival_offset ≤ stop.arrival_offset then
          (backwardLoop more ns rest2).map (fun l => (stop, ns) :: l)
        else .error .sortProblem
    else
      if next_station.arrival_offset ≤ stop.arrival_offset then
        (backwardLoop more next_station rest).map (fun l => (stop, next_station) :: l)
      else .error .sortProblem

/-- Stage 3 backward, `StationAccessFinder.stations_to_route_story_stop`
for one extended route story. -/
def stations_to_route_story_stop (e : ExtendedRouteStory) :
    Except Stage3Error (List (RouteStoryStop × RouteStoryStop)) :=
  match e.station_stops.reverse with
  | [] => .error .stopIteration
  | s :: rest => backwardLoop e.route_story.stops.reverse s rest

/-- The travel time of one stage-3 assignment, as computed in stage 6
(line 274): matched station's arrival offset minus the stop's. -/
def travelTime (pr : RouteStoryStop × RouteStoryStop) : Int :=
  pr.2.arrival_offset - pr.1.arrival_offset

/-! Concrete pattern of spec §8.2 / claim C1: offsets A:0, B:120,
S(station):300, C:420, with S the only stop near a station. -/

/-- Stop A of the C1 pattern. -/
def stopA : RouteStoryStop := ⟨1, 1, 0⟩

/-- Stop B of the C1 pattern. -/
def stopB : RouteStoryStop := ⟨2, 2, 120⟩

/-- Stop S (the station stop) of the C1 pattern. -/
def stopS : RouteStoryStop := ⟨3, 3, 300⟩

/-- Stop C of the C1 pattern. -/
def stopC : RouteStoryStop := ⟨4, 4, 420⟩

/-- The C1 pattern itself. -/
def exStory : RouteStory := ⟨100, [stopA, stopB, stopS, stopC]⟩

/-- A distance table on which exactly stop S is near a station (id 50). -/
def exNear : List (Nat × StationAndDistance) := [(3, ⟨50, 10⟩)]

/-- Claim C1: on the pattern with arrival offsets [A:0, B:120, S:300,
C:420] where only S is a station stop, the stage-3 forward projector
retained by stage 2 produces exactly the assignments (A,S), (B,S), (S,S)
with travel times 300, 180 and 0, and C receives no assignment. -/
theorem stage3_forward_direction_correctness :
    route_story_train_station_stops exNear [exStory] =
      [ExtendedRouteStory.mk exStory [stopS]] ∧
    route_story_stops_to_stations (ExtendedRouteStory.mk exStory [stopS]) =
      Except.ok [(stopA, stopS), (stopB, stopS), (stopS, stopS)] ∧
    [(stopA, stopS), (stopB, stopS), (stopS, stopS)].map travelTime = [300, 180, 0] ∧
    stopC ∉ [(stopA, stopS), (stopB, stopS), (stopS, stopS)].map Prod.fst := by
  refine ⟨by decide, rfl, by decide, by decide⟩

/-! ### Claim C3: the offset-ordering assertion at every assignment -/

/-- Every assignment emitted by a successful forward scan satisfies the
asserted ordering: the matched station's arrival offset is at least the
stop's. -/
theorem forwardLoop_offset_order (stops : List RouteStoryStop)
    (next_station : RouteStoryStop) (rest : List RouteStoryStop)
    (l : List (RouteStoryStop × RouteStoryStop))
    (h : forwardLoop stops next_station rest = Except.ok l) :
    ∀ pr ∈ l, pr.1.arrival_offset ≤ pr.2.arrival_offset := by
  induction stops generalizing next_station rest l with
  | nil =>
    simp only [forwardLoop] at h
    cases h
    intro pr hpr
    simp at hpr
  | cons stop more ih =>
    simp only [forwardLoop] at h
    split at h
    · cases rest with
      | nil =>
        simp only [] at h
        cases h
        intro pr hpr
        simp at hpr
      | cons ns rest2 =>
        simp only [] at h
        split at h
        · cases hrec : forwardLoop more ns rest2 with
          | error e => rw [hrec] at h; simp [Except.map] at h
          | ok l2 =>
            rw [hrec] at h
            simp only [Except.map] at h
            cases h
            intro pr hpr
            rcases List.mem_cons.mp hpr with h1 | h2
            · subst h1; simpa using by omega
            · exact ih ns rest2 l2 hrec pr h2
        · exact absurd h (by simp)
    · split at h
      · cases hrec : forwardLoop more next_station rest with
        | error e => rw [hrec] at h; simp [Except.map] at h
        | ok l2 =>
          rw [hrec] at h
          simp only [Except.map] at h
          cases h
          intro pr hpr
          rcases List.mem_cons.mp hpr with h1 | h2
          · subst h1; simpa using by omega
          · exact ih next_station rest l2 hrec pr h2
      · exact absurd h (by simp)

/-- Every assignment emitted by a successful backward scan satisfies the
mirrored asserted ordering: the matched station's arrival offset is at
most the stop's. -/
theorem backwardLoop_offset_order (stops : List RouteStoryStop)
    (next_station : RouteStoryStop) (rest : List RouteStoryStop)
    (l : List (RouteStoryStop × RouteStoryStop))
    (h : backwardLoop stops next_station rest = Except.ok l) :
    ∀ pr ∈ l, pr.2.arrival_offset ≤ pr.1.arrival_offset := by
  induction stops generalizing next_station rest l with
  | nil =>
    simp only [backwardLoop] at h
    cases h
    intro pr hpr
    simp at hpr
  | cons stop more ih =>
    simp only [backwardLoop] at h
    split at h
    · cases rest with
      | nil =>
        simp only [] at h
        cases h
        intro pr hpr
        simp at hpr
      | cons ns rest2 =>
        simp only [] at h
        split at h
        · cases hrec : backwardLoop more ns rest2 with
          | error e => rw [hrec] at h; simp [Except.map] at h
          | ok l2 =>
            rw [hrec] at h
            simp only [Except.map] at h
            cases h
            intro pr hpr
            rcases List.mem_cons.mp hpr with h1 | h2
            · subst h1; simpa using by omega
            · exact ih ns rest2 l2 hrec pr h2
        · exact absurd h (by simp)
    · split at h
      · cases hrec : backwardLoop more next_station rest with
        | error e => rw [hrec] at h; simp [Except.map] at h
        | ok l2 =>
          rw [hrec] at h
          simp only [Except.map] at h
          cases h
          intro pr hpr
          rcases List.mem_cons.mp hpr with h1 | h2
          · subst h1; simpa using by omega
          · exact ih next_station rest l2 hrec pr h2
      · exact absurd h (by simp)

/-- An extended route story whose stop records are out of offset order:
the second stop (the station stop) has a smaller arrival offset than the
first stop. -/
def badOrderStory : ExtendedRouteStory :=
  ExtendedRouteStory.mk ⟨101, [⟨7, 1, 500⟩, ⟨8, 2, 100⟩]⟩ [⟨8, 2, 100⟩]

/-- Claim C3: at every stage-3 assignment the matched station's arrival
offset is checked against the stop's (at least it in forward mode, at
most it in backward mode) — a successful run only ever emits assignments
satisfying the ordering — and a pattern whose stop records violate the
ordering at an assignment aborts with the fatal `sort problem!` fault
instead of yielding a wrong assignment. -/
theorem stage3_assignment_offset_invariant :
    (∀ e l, route_story_stops_to_stations e = Except.ok l →
      ∀ pr ∈ l, pr.1.arrival_offset ≤ pr.2.arrival_offset) ∧
    (∀ e l, stations_to_route_story_stop e = Except.ok l →
      ∀ pr ∈ l, pr.2.arrival_offset ≤ pr.1.arrival_offset) ∧
    route_story_stops_to_stations badOrderStory = Except.error Stage3Error.sortProblem := by
  refine ⟨?_, ?_, rfl⟩
  · intro e l h
    unfold route_story_stops_to_stations at h
    split at h
    · cases h
    · exact forwardLoop_offset_order _ _ _ _ h
  · intro e l h
    unfold stations_to_route_story_stop at h
    split at h
    · cases h
    · exact backwardLoop_offset_order _ _ _ _ h

/-- Witness for C3 at a concrete input: the invariant instantiated on the
C1 pattern's first assignment. -/
theorem stage3_assignment_offset_invariant_witness :
    stopA.arrival_offset ≤ stopS.arrival_offset :=
  stage3_assignment_offset_invariant.1 (ExtendedRouteStory.mk exStory [stopS])
    [(stopA, stopS), (stopB, stopS), (stopS, stopS)] rfl (stopA, stopS) (by decide)

/-! ### Claim C10: stage 2 only retains stories with a station stop -/

/-- The forward scan loop itself never raises `StopIteration`; only the
initial unguarded fetch can. -/
theorem forwardLoop_ne_stopIteration (stops : List RouteStoryStop)
    (next_station : RouteStoryStop) (rest : List RouteStoryStop) :
    forwardLoop stops next_station rest ≠ Except.error Stage3Error.stopIteration := by
  induction stops generalizing next_station rest with
  | nil => simp [forwardLoop]
  | cons stop more ih =>
    simp only [forwardLoop]
    split
    · cases rest with
      | nil => simp
      | cons ns rest2 =>
        simp only []
        split
        · intro hc
          cases h : forwardLoop more ns rest2 with
          | error e =>
            rw [h] at hc
            simp only [Except.map] at hc
            cases hc
            exact ih ns rest2 h
          | ok l2 => rw [h] at hc; simp [Except.map] at hc
        · simp
    · split
      · intro hc
        cases h : forwardLoop more next_station rest with
        | error e =>
          rw [h] at hc
          simp only [Except.map] at hc
          cases hc
          exact ih next_station rest h
        | ok l2 => rw [h] at hc; simp [Except.map] at hc
      · simp

/-- The backward scan loop itself never raises `StopIteration` either. -/
theorem backwardLoop_ne_stopIteration (stops : List RouteStoryStop)
    (next_station : RouteStoryStop) (rest : List RouteStoryStop) :
    backwardLoop stops next_station rest ≠ Except.error Stage3Error.stopIteration := by
  induction stops generalizing next_station rest with
  | nil => simp [backwardLoop]
  | cons stop more ih =>
    simp only [backwardLoop]
    split
    · cases rest with
      | nil => simp
      | cons ns rest2 =>
        simp only []
        split
        · intro hc
          cases h : backwardLoop more ns rest2 with
          | error e =>
            rw [h] at hc
            simp only [Except.map] at hc
            cases hc
            exact ih ns rest2 h
          | ok l2 => rw [h] at hc; simp [Except.map] at hc
        · simp
    · split
      · intro hc
        cases h : backwardLoop more next_station rest with
        | error e =>
          rw [h] at hc
          simp only [Except.map] at hc
          cases hc
          exact ih next_station rest h
        | ok l2 => rw [h] at hc; simp [Except.map] at hc
      · simp

/-- Claim C10: every extended route story retained by stage 2 has a
non-empty station-stop list, so the unguarded fetch of the first station
at the start of either stage-3 scan always succeeds: neither direction
can raise `StopIteration` on a stage-2 result. -/
theorem stage2_station_stops_nonempty
    (stops_near_stations : List (Nat × StationAndDistance))
    (route_stories : List RouteStory) (e : ExtendedRouteStory)
    (he : e ∈ route_story_train_station_stops stops_near_stations route_stories) :
    e.station_stops ≠ [] ∧
    route_story_stops_to_stations e ≠ Except.error Stage3Error.stopIteration ∧
    stations_to_route_story_stop e ≠ Except.error Stage3Error.stopIteration := by
  have hne : e.station_stops ≠ [] := by
    unfold route_story_train_station_stops at he
    have := (List.mem_filter.mp he).2
    intro hnil
    rw [hnil] at this
    simp at this
  refine ⟨hne, ?_, ?_⟩
  · unfold route_story_stops_to_stations
    split
    · exact absurd (by assumption) hne
    · exact forwardLoop_ne_stopIteration _ _ _
  · unfold stations_to_route_story_stop
    split
    · next hrev =>
      exact absurd (by simpa using congrArg List.reverse hrev) hne
    · exact backwardLoop_ne_stopIteration _ _ _

/-- Witness for C10: the C1 example story is retained by stage 2 and its
station-stop list is non-empty. -/
theorem stage2_station_stops_nonempty_witness :
    (ExtendedRouteStory.mk exStory [stopS]).station_stops ≠ [] :=
  (stage2_station_stops_nonempty exNear [exStory]
    (ExtendedRouteStory.mk exStory [stopS]) (by decide)).1

/-! ### Stage 4: route story frequencies -/

/-- The weekend day numbers, as in `station_access.py` line 12. -/
def weekend_days : List Int := [4, 5]

/-- Modelled from the spec: the set `weekdays` used by stage 4 is imported
from `gtfs.bus2train.utilities`, which is not among this repository's
source files.  Per the spec each date in the analysis window is classified
as weekday or weekend by its day-of-week; days are modelled as integers
with day-of-week `d % 7`, a day being a weekday exactly when its
day-of-week is not in `weekend_days`. -/
def isWeekday (d : Int) : Bool :=
  !(weekend_days.contains (d % 7))

/-- `StationAccessFinder.date_range`: every date from `start_date` to
`end_date` inclusive, in order. -/
def date_range (start_date end_date : Int) : List Int :=
  (List.range (end_date + 1 - start_date).toNat).map (fun i : Nat => start_date + (i : Int))

/-- One iteration of the stage-4 inner loop: classify date `d` and bump
the matching counter. -/
def countDay (c : HasFrequency) (d : Int) : HasFrequency :=
  if isWeekday d then { c with weekday_trips := c.weekday_trips + 1 }
  else { c with weekend_trips := c.weekend_trips + 1 }

/-- The stage-4 inner loop for one trip: one increment per date of the
analysis window. -/
def countTripDays (start_date end_date : Int) (c : HasFrequency) : HasFrequency :=
  (date_range start_date end_date).foldl countDay c

/-- The trip filter of stage 4, exactly as written at lines 245-246 of
`station_access.py`: note the `or` between the two date comparisons. -/
def stage4_trip_test (start_date end_date : Int) (trip : Trip) : Bool :=
  decide (trip.service.end_date ≥ start_date) || decide (trip.service.start_date ≤ end_date)

/-- The service-window overlap test as the specification words it
(section 4.4): `service.end_date >= start_date AND service.start_date <=
end_date`.  Stated here only to be compared with `stage4_trip_test`. -/
def spec_overlap_test (start_date end_date : Int) (trip : Trip) : Bool :=
  decide (trip.service.end_date ≥ start_date) && decide (trip.service.start_date ≤ end_date)

/-- Stage 4, `StationAccessFinder.route_story_frequency`, restricted to
one retained route story: fold the per-trip counting over the trips that
pass the stage-4 filter and resolve to that story. -/
def route_story_frequency (start_date end_date : Int) (trips : List Trip)
    (route_story_id : Nat) : HasFrequency :=
  ((trips.filter (stage4_trip_test start_date end_date)).filter
      (fun t => t.route_story_id == route_story_id)).foldl
    (fun c _ => countTripDays start_date end_date c) ⟨0, 0⟩

/-- A trip whose service window [0, 9] lies entirely before the analysis
window [100, 107]. -/
def staleTrip : Trip := ⟨1, ⟨11, "10"⟩, ⟨0, 9⟩, 1⟩

/-- Claim C2 names the overlap test with AND; the code at lines 245-246
of `station_access.py` uses OR, which admits trips with no overlap at
all.  On `staleTrip` (service window ends 91 days before the analysis
window starts) the claimed AND test rejects, the code's OR test accepts,
and the counter for its route story is incremented for all 8 dates of the
window. -/
theorem route_story_frequency_overlap_filter_bug :
    spec_overlap_test 100 107 staleTrip = false ∧
    stage4_trip_test 100 107 staleTrip = true ∧
    (route_story_frequency 100 107 [staleTrip] 1).total_trips = 8 := by
  refine ⟨rfl, rfl, by decide⟩

/-! ### Stages 6 and 7: aggregation by route and by stop

The Python objects are mutable and keyed by insertion-ordered dicts; we
model each dict as an association list whose first matching entry is
updated in place and where new keys are appended at the end, which is
exactly the observable behavior of a Python dict under `setdefault` and
item assignment. -/

/-- An `ExtendedRouteStory` as stage 6 consumes it, i.e. after stages
3-5 have filled in its fields: the story id, the route resolved by stage
5, the trip-count accumulator filled by stage 4, and the stage-3
assignment list `stop_and_station`. -/
structure ScoredRouteStory where
  route_story_id : Nat
  route : Route
  freq : HasFrequency
  stop_and_station : List (RouteStoryStop × RouteStoryStop)
deriving DecidableEq, Repr, Inhabited

/-- `StationAccessFinder.ExtendedRoute`: the route, its trip-count
accumulator, and the insertion-ordered map from (stop_id, station_id) to
the accumulated travel-time mass (`stops_to_station_to_travel_time`,
a `defaultdict(lambda: 0)`). -/
structure ExtendedRoute where
  route : Route
  freq : HasFrequency
  stops_to_station_to_travel_time : List ((Nat × Nat) × Rat)
deriving DecidableEq, Repr, Inhabited

/-- The station id recorded for a station stop: the `station_id` of its
entry in `stops_near_stations` (line 272).  Station stops of retained
stories are always keys of that mapping, so the default is never
reached in a pipeline run. -/
def stationIdOf (stops_near_stations : List (Nat × StationAndDistance))
    (stop_id : Nat) : Nat :=
  ((stops_near_stations.lookup stop_id).getD ⟨0, 0⟩).station_id

/-- `defaultdict` accumulation `m[k] += v`: update the entry of key `k`
in place, or append `(k, default 0 + v)` when absent. -/
def updateTT (m : List ((Nat × Nat) × Rat)) (k : Nat × Nat) (v : Rat) :
    List ((Nat × Nat) × Rat) :=
  match m with
  | [] => [(k, v)]
  | (k2, v2) :: rest =>
    if k2 = k then (k2, v2 + v) :: rest else (k2, v2) :: updateTT rest k v

/-- The body of the stage-6 outer loop for one story absorbed into one
extended route: add the story's trip counts, then for every stage-3
assignment accumulate `total_trips * travel_time` under the
(stop_id, station_id) key. -/
def absorbStory (stops_near_stations : List (Nat × StationAndDistance))
    (er : ExtendedRoute) (st : ScoredRouteStory) : ExtendedRoute :=
  { er with
    freq := er.freq.add_trip_counts st.freq
    stops_to_station_to_travel_time :=
      st.stop_and_station.foldl
        (fun m pr =>
          updateTT m (pr.1.stop_id, stationIdOf stops_near_stations pr.2.stop_id)
            ((st.freq.total_trips : Rat) * (travelTime pr : Rat)))
        er.stops_to_station_to_travel_time }

/-- `self.extended_routes.setdefault(route_id, ExtendedRoute(route))`
followed by the loop body: the first extended route with the story's
route id is updated in place; if none exists a fresh one is appended. -/
def insertStory (stops_near_stations : List (Nat × StationAndDistance))
    (st : ScoredRouteStory) : List ExtendedRoute → List ExtendedRoute
  | [] => [absorbStory stops_near_stations (ExtendedRoute.mk st.route ⟨0, 0⟩ []) st]
  | er :: rest =>
    if er.route.route_id = st.route.route_id
    then absorbStory stops_near_stations er st :: rest
    else er :: insertStory stops_near_stations st rest

/-- The final normalization of stage 6: divide every accumulated
travel-time mass by the route's total trip count (line 279; a float
division in Python, exact division in `Rat` here). -/
def divideTT (er : ExtendedRoute) : ExtendedRoute :=
  { er with
    stops_to_station_to_travel_time :=
      er.stops_to_station_to_travel_time.map
        (fun p => (p.1, p.2 / (er.freq.total_trips : Rat))) }

/-- Stage 6, `StationAccessFinder.route_stops_and_stations`: fold every
scored story into the route map, then normalize each route's accumulated
travel times. -/
def route_stops_and_stations
    (stops_near_stations : List (Nat × StationAndDistance))
    (stories : List ScoredRouteStory) : List ExtendedRoute :=
  (stories.foldl (fun acc st => insertStory stops_near_stations st acc) []).map divideTT

/-- `StationAccessFinder.StopAndStation`: the terminal aggregate for one
(stop, station) pair. -/
structure StopAndStation where
  stop_id : Nat
  station_id : Nat
  routes : List Route
  freq : HasFrequency
  travel_time : Rat
deriving DecidableEq, Repr, Inhabited

/-- The body of the stage-7 inner loop for one (key, travel-time) entry
of one extended route: append the route to the aggregate's route list,
add the route's trip counts, and accumulate `travel_time * total_trips`. -/
def addRouteAtKey (er : ExtendedRoute) (kv : (Nat × Nat) × Rat)
    (s : StopAndStation) : StopAndStation :=
  { s with
    routes := s.routes ++ [er.route]
    freq := s.freq.add_trip_counts er.freq
    travel_time := s.travel_time + kv.2 * (er.freq.total_trips : Rat) }

/-- `self.stop_and_stations.setdefault(key, StopAndStation(...))`
followed by the loop body: update the first aggregate with the entry's
key in place, or append a fresh one. -/
def insertAgg (er : ExtendedRoute) (kv : (Nat × Nat) × Rat) :
    List StopAndStation → List StopAndStation
  | [] => [addRouteAtKey er kv (StopAndStation.mk kv.1.1 kv.1.2 [] ⟨0, 0⟩ 0)]
  | s :: rest =>
    if (s.stop_id, s.station_id) = kv.1
    then addRouteAtKey er kv s :: rest
    else s :: insertAgg er kv rest

/-- Stage 7, `StationAccessFinder.aggregate_by_stop`: fold every entry of
every extended route into the aggregate map, then divide each aggregate's
accumulated travel time by its total trip count (line 293). -/
def aggregate_by_stop (extended_routes : List ExtendedRoute) : List StopAndStation :=
  (extended_routes.foldl
      (fun acc er => er.stops_to_station_to_travel_time.foldl
        (fun acc2 kv => insertAgg er kv acc2) acc)
      []).map
    (fun s => { s with travel_time := s.travel_time / (s.freq.total_trips : Rat) })

/-! ### Claim C4: the stage-6 and stage-7 divisors are at least 1 -/

/-- `add_trip_counts` adds the totals. -/
theorem HasFrequency.total_trips_add (a b : HasFrequency) :
    (a.add_trip_counts b).total_trips = a.total_trips + b.total_trips := by
  simp [HasFrequency.add_trip_counts, HasFrequency.total_trips]
  omega

/-- Each counted day adds exactly one to the total. -/
theorem countDay_total (c : HasFrequency) (d : Int) :
    (countDay c d).total_trips = c.total_trips + 1 := by
  unfold countDay
  split <;> simp [HasFrequency.total_trips] <;> omega

/-- Folding `countDay` over a date list adds the list's length. -/
theorem foldl_countDay_total (l : List Int) (c : HasFrequency) :
    (l.foldl countDay c).total_trips = c.total_trips + l.length := by
  induction l generalizing c with
  | nil => simp
  | cons d rest ih => simp [List.foldl_cons, ih, countDay_total]; omega

/-- One trip adds the number of days of the analysis window. -/
theorem countTripDays_total (start_date end_date : Int) (c : HasFrequency) :
    (countTripDays start_date end_date c).total_trips =
      c.total_trips + (date_range start_date end_date).length :=
  foldl_countDay_total _ _

/-- The analysis window has `end_date - start_date + 1` days. -/
theorem date_range_length (start_date end_date : Int) :
    (date_range start_date end_date).length = (end_date + 1 - start_date).toNat := by
  unfold date_range
  rw [List.length_map, List.length_range]

/-- Folding the per-trip counting over a trip list multiplies. -/
theorem foldl_countTripDays_total (start_date end_date : Int)
    (tl : List Trip) (c : HasFrequency) :
    (tl.foldl (fun c _ => countTripDays start_date end_date c) c).total_trips =
      c.total_trips + tl.length * (date_range start_date end_date).length := by
  induction tl generalizing c with
  | nil => simp
  | cons t rest ih =>
    simp [List.foldl_cons, ih, countTripDays_total]
    ring

/-- If the analysis window is non-empty and some trip with a valid
service window resolves to the story, the story's stage-4 trip count is
positive. -/
theorem route_story_frequency_total_pos (start_date end_date : Int)
    (trips : List Trip) (route_story_id : Nat)
    (hwin : start_date ≤ end_date)
    (ht : ∃ t ∈ trips, t.route_story_id = route_story_id ∧
      t.service.start_date ≤ t.service.end_date) :
    1 ≤ (route_story_frequency start_date end_date trips route_story_id).total_trips := by
  obtain ⟨t, htm, hsid, hsv⟩ := ht
  have hpass : stage4_trip_test start_date end_date t = true := by
    unfold stage4_trip_test
    simp only [Bool.or_eq_true, decide_eq_true_eq]
    omega
  have hmem : t ∈ (trips.filter (stage4_trip_test start_date end_date)).filter
      (fun t => t.route_story_id == route_story_id) := by
    rw [List.mem_filter]
    exact ⟨List.mem_filter.mpr ⟨htm, hpass⟩, by simpa using hsid⟩
  unfold route_story_frequency
  rw [foldl_countTripDays_total]
  have hlen : 1 ≤ ((trips.filter (stage4_trip_test start_date end_date)).filter
      (fun t => t.route_story_id == route_story_id)).length :=
    List.length_pos.mpr (List.ne_nil_of_mem hmem)
  have hdays : 1 ≤ (date_range start_date end_date).length := by
    rw [date_range_length]; omega
  have hmul := Nat.mul_le_mul hlen hdays
  have hz : (⟨0, 0⟩ : HasFrequency).total_trips = 0 := rfl
  omega

/-- `absorbStory` only changes the accumulator by adding the story's. -/
theorem absorbStory_freq (stops_near_stations : List (Nat × StationAndDistance))
    (er : ExtendedRoute) (st : ScoredRouteStory) :
    (absorbStory stops_near_stations er st).freq = er.freq.add_trip_counts st.freq := rfl

/-- `insertStory` keeps every route total positive when the story's total
is positive. -/
theorem insertStory_total_pos (stops_near_stations : List (Nat × StationAndDistance))
    (st : ScoredRouteStory) (hst : 1 ≤ st.freq.total_trips) :
    ∀ acc : List ExtendedRoute, (∀ er ∈ acc, 1 ≤ er.freq.total_trips) →
      ∀ er ∈ insertStory stops_near_stations st acc, 1 ≤ er.freq.total_trips := by
  intro acc
  induction acc with
  | nil =>
    intro _ er her
    simp only [insertStory, List.mem_singleton] at her
    subst her
    rw [absorbStory_freq, HasFrequency.total_trips_add]
    have hz : (⟨0, 0⟩ : HasFrequency).total_trips = 0 := rfl
    omega
  | cons a rest ih =>
    intro hacc er her
    simp only [insertStory] at her
    split at her
    · rcases List.mem_cons.mp her with h1 | h2
      · subst h1
        rw [absorbStory_freq, HasFrequency.total_trips_add]
        have := hacc a (List.mem_cons_self a rest)
        omega
      · exact hacc er (List.mem_cons_of_mem a h2)
    · rcases List.mem_cons.mp her with h1 | h2
      · rw [h1]
        exact hacc a (List.mem_cons_self a rest)
      · exact ih (fun x hx => hacc x (List.mem_cons_of_mem a hx)) er h2

/-- The stage-6 fold keeps every route total positive. -/
theorem foldl_insertStory_total_pos
    (stops_near_stations : List (Nat × StationAndDistance))
    (stories : List ScoredRouteStory) :
    ∀ acc : List ExtendedRoute, (∀ st ∈ stories, 1 ≤ st.freq.total_trips) →
      (∀ er ∈ acc, 1 ≤ er.freq.total_trips) →
      ∀ er ∈ stories.foldl (fun acc st => insertStory stops_near_stations st acc) acc,
        1 ≤ er.freq.total_trips := by
  induction stories with
  | nil =>
    intro acc _ hacc
    simpa using hacc
  | cons st rest ih =>
    intro acc hs hacc er her
    exact ih (insertStory stops_near_stations st acc)
      (fun x hx => hs x (List.mem_cons_of_mem st hx))
      (insertStory_total_pos stops_near_stations st (hs st (List.mem_cons_self st rest))
        acc hacc)
      er her

/-- `insertAgg` keeps every aggregate total positive when the inserted
route's total is positive. -/
theorem insertAgg_total_pos (er : ExtendedRoute) (kv : (Nat × Nat) × Rat)
    (her : 1 ≤ er.freq.total_trips) :
    ∀ acc : List StopAndStation, (∀ s ∈ acc, 1 ≤ s.freq.total_trips) →
      ∀ s ∈ insertAgg er kv acc, 1 ≤ s.freq.total_trips := by
  intro acc
  induction acc with
  | nil =>
    intro _ s hs
    simp only [insertAgg, List.mem_singleton] at hs
    subst hs
    simp only [addRouteAtKey, HasFrequency.total_trips_add]
    have hz : (⟨0, 0⟩ : HasFrequency).total_trips = 0 := rfl
    omega
  | cons a rest ih =>
    intro hacc s hs
    simp only [insertAgg] at hs
    split at hs
    · rcases List.mem_cons.mp hs with h1 | h2
      · subst h1
        simp only [addRouteAtKey, HasFrequency.total_trips_add]
        have := hacc a (List.mem_cons_self a rest)
        omega
      · exact hacc s (List.mem_cons_of_mem a h2)
    · rcases List.mem_cons.mp hs with h1 | h2
      · rw [h1]
        exact hacc a (List.mem_cons_self a rest)
      · exact ih (fun x hx => hacc x (List.mem_cons_of_mem a hx)) s h2

/-- The stage-7 inner fold keeps every aggregate total positive. -/
theorem foldl_insertAgg_total_pos (er : ExtendedRoute)
    (kvs : List ((Nat × Nat) × Rat)) (her : 1 ≤ er.freq.total_trips) :
    ∀ acc : List StopAndStation, (∀ s ∈ acc, 1 ≤ s.freq.total_trips) →
      ∀ s ∈ kvs.foldl (fun acc2 kv => insertAgg er kv acc2) acc, 1 ≤ s.freq.total_trips := by
  induction kvs with
  | nil =>
    intro acc hacc
    simpa using hacc
  | cons kv rest ih =>
    intro acc hacc s hs
    exact ih (insertAgg er kv acc) (insertAgg_total_pos er kv her acc hacc) s hs

/-- The stage-7 outer fold keeps every aggregate total positive. -/
theorem foldl_routes_total_pos (ers : List ExtendedRoute) :
    ∀ acc : List StopAndStation, (∀ er ∈ ers, 1 ≤ er.freq.total_trips) →
      (∀ s ∈ acc, 1 ≤ s.freq.total_trips) →
      ∀ s ∈ ers.foldl
          (fun acc er => er.stops_to_station_to_travel_time.foldl
            (fun acc2 kv => insertAgg er kv acc2) acc) acc,
        1 ≤ s.freq.total_trips := by
  induction ers with
  | nil =>
    intro acc _ hacc
    simpa using hacc
  | cons er rest ih =>
    intro acc hers hacc s hs
    exact ih _ (fun x hx => hers x (List.mem_cons_of_mem er hx))
      (foldl_insertAgg_total_pos er _ (hers er (List.mem_cons_self er rest)) acc hacc)
      s hs

/-- Claim C4: when the analysis window is non-empty and every scored
story carries the stage-4 count of at least one trip with a valid service
window, every `ExtendedRoute` reaching the stage-6 division and every
`StopAndStation` reaching the stage-7 division has `total_trips >= 1`,
so neither division divides by zero. -/
theorem aggregation_divisors_positive (start_date end_date : Int)
    (trips : List Trip) (stops_near_stations : List (Nat × StationAndDistance))
    (stories : List ScoredRouteStory)
    (hwin : start_date ≤ end_date)
    (htrip : ∀ st ∈ stories, ∃ t ∈ trips, t.route_story_id = st.route_story_id ∧
      t.service.start_date ≤ t.service.end_date)
    (hfreq : ∀ st ∈ stories, st.freq =
      route_story_frequency start_date end_date trips st.route_story_id) :
    (∀ er ∈ route_stops_and_stations stops_near_stations stories,
      1 ≤ er.freq.total_trips) ∧
    (∀ a ∈ aggregate_by_stop (route_stops_and_stations stops_near_stations stories),
      1 ≤ a.freq.total_trips) := by
  have hstory : ∀ st ∈ stories, 1 ≤ st.freq.total_trips := by
    intro st hst
    rw [hfreq st hst]
    exact route_story_frequency_total_pos start_date end_date trips st.route_story_id
      hwin (htrip st hst)
  have hroutes : ∀ er ∈ route_stops_and_stations stops_near_stations stories,
      1 ≤ er.freq.total_trips := by
    intro er her
    unfold route_stops_and_stations at her
    obtain ⟨er0, her0, hdiv⟩ := List.mem_map.mp her
    have := foldl_insertStory_total_pos stops_near_stations stories []
      hstory (by simp) er0 her0
    rw [← hdiv]
    simpa [divideTT] using this
  refine ⟨hroutes, ?_⟩
  intro a ha
  unfold aggregate_by_stop at ha
  obtain ⟨a0, ha0, hdiv⟩ := List.mem_map.mp ha
  have := foldl_routes_total_pos (route_stops_and_stations stops_near_stations stories)
    [] hroutes (by simp) a0 ha0
  rw [← hdiv]
  simpa using this

/-- A concrete trip for the C4 witness. -/
def exTrip : Trip := ⟨2, ⟨11, "10"⟩, ⟨0, 400⟩, 100⟩

/-- A concrete scored route story for the C4 witness: one cross-window
trip, one stage-3 assignment, frequency filled by stage 4 over the
window [0, 7]. -/
def exScored : ScoredRouteStory :=
  ⟨100, ⟨11, "10"⟩, route_story_frequency 0 7 [exTrip] 100, [(stopA, stopS)]⟩

/-- Witness for C4 at a concrete input: the single extended route built
from `exScored` reaches stage 6 with a positive total. -/
theorem aggregation_divisors_positive_witness :
    1 ≤ ((route_stops_and_stations exNear [exScored]).headD default).freq.total_trips := by
  have key := (aggregation_divisors_positive 0 7 [exTrip] exNear [exScored]
    (by decide) (by decide) (by decide)).1
  have hne : route_stops_and_stations exNear [exScored] ≠ [] := by decide
  cases h : route_stops_and_stations exNear [exScored] with
  | nil => exact absurd h hne
  | cons x xs =>
    exact key x (by rw [h]; exact List.mem_cons_self x xs)

/-! ### Claim C5: trip-count weight conservation

Both aggregation dicts follow the same pattern: look up the entry with a
given key, update it in place with the contribution of the current item,
or append a freshly initialized entry.  We factor that pattern out as
`upsertBy`, prove once what a fold of upserts does to the trip-count
accumulators, and instantiate it for stage 6 (stories grouped by route)
and stage 7 (route entries grouped by (stop, station) key). -/

/-- The neutral accumulator. -/
def zeroFreq : HasFrequency := ⟨0, 0⟩

/-- Sum of a list of accumulators, folded with `add_trip_counts`. -/
def sumFreq (l : List HasFrequency) : HasFrequency :=
  l.foldl HasFrequency.add_trip_counts zeroFreq

/-- Adding the neutral accumulator on the left does nothing. -/
theorem zeroFreq_add (a : HasFrequency) : zeroFreq.add_trip_counts a = a := by
  simp [zeroFreq, HasFrequency.add_trip_counts]

/-- `sumFreq` of an empty list. -/
theorem sumFreq_nil : sumFreq [] = zeroFreq := rfl

/-- `sumFreq` over a list extended on the right. -/
theorem sumFreq_append_singleton (l : List HasFrequency) (x : HasFrequency) :
    sumFreq (l ++ [x]) = (sumFreq l).add_trip_counts x := by
  simp [sumFreq, List.foldl_append]

/-- Generic in-place update-or-append on an insertion-ordered list:
update the first element of key `k` with `f`, or append `f z` when no
element has key `k`. -/
def upsertBy {β κ : Type} [DecidableEq κ] (key : β → κ) (k : κ) (f : β → β) (z : β) :
    List β → List β
  | [] => [f z]
  | b :: rest => if key b = k then f b :: rest else b :: upsertBy key k f z rest

/-- Keys present after an upsert, assuming `f` preserves keys and `z`
carries key `k`. -/
theorem upsertBy_mem_keys {β κ : Type} [DecidableEq κ] (key : β → κ) (k : κ)
    (f : β → β) (z : β) (hf : ∀ b, key (f b) = key b) (hz : key z = k) :
    ∀ (acc : List β) (k2 : κ),
      k2 ∈ (upsertBy key k f z acc).map key ↔ k2 ∈ acc.map key ∨ k2 = k := by
  intro acc
  induction acc with
  | nil =>
    intro k2
    simp [upsertBy, hf, hz, eq_comm]
  | cons b rest ih =>
    intro k2
    simp only [upsertBy]
    split
    · next hb =>
      simp only [List.map_cons, List.mem_cons, hf]
      constructor
      · rintro (h1 | h2)
        · exact Or.inl (Or.inl h1)
        · exact Or.inl (Or.inr h2)
      · rintro ((h1 | h2) | h3)
        · exact Or.inl h1
        · exact Or.inr h2
        · exact Or.inl (hb ▸ h3)
    · simp only [List.map_cons, List.mem_cons, ih]
      tauto

/-- An upsert keeps the key list duplicate-free. -/
theorem upsertBy_nodup_keys {β κ : Type} [DecidableEq κ] (key : β → κ) (k : κ)
    (f : β → β) (z : β) (hf : ∀ b, key (f b) = key b) (hz : key z = k) :
    ∀ acc : List β, (acc.map key).Nodup → ((upsertBy key k f z acc).map key).Nodup := by
  intro acc
  induction acc with
  | nil =>
    intro _
    simp [upsertBy]
  | cons b rest ih =>
    intro hnd
    simp only [List.map_cons, List.nodup_cons] at hnd
    simp only [upsertBy]
    split
    · simp only [List.map_cons, List.nodup_cons, hf]
      exact hnd
    · next hb =>
      simp only [List.map_cons, List.nodup_cons]
      refine ⟨?_, ih hnd.2⟩
      rw [upsertBy_mem_keys key k f z hf hz rest (key b)]
      rintro (h1 | h2)
      · exact hnd.1 h1
      · exact hb h2

/-- Where each element of an upsert result comes from, when keys are
duplicate-free: an untouched element of a different key, the updated
first element of key `k`, or the fresh element when `k` was absent. -/
theorem upsertBy_mem_char {β κ : Type} [DecidableEq κ] (key : β → κ) (k : κ)
    (f : β → β) (z : β) :
    ∀ acc : List β, (acc.map key).Nodup →
      ∀ b2 ∈ upsertBy key k f z acc,
        (b2 ∈ acc ∧ key b2 ≠ k) ∨
        (∃ b ∈ acc, key b = k ∧ b2 = f b) ∨
        (k ∉ acc.map key ∧ b2 = f z) := by
  intro acc
  induction acc with
  | nil =>
    intro _ b2 hb2
    simp only [upsertBy, List.mem_singleton] at hb2
    exact Or.inr (Or.inr ⟨by simp, hb2⟩)
  | cons b rest ih =>
    intro hnd b2 hb2
    simp only [List.map_cons, List.nodup_cons] at hnd
    simp only [upsertBy] at hb2
    split at hb2
    · next hb =>
      rcases List.mem_cons.mp hb2 with h1 | h2
      · exact Or.inr (Or.inl ⟨b, List.mem_cons_self b rest, hb, h1⟩)
      · refine Or.inl ⟨List.mem_cons_of_mem b h2, ?_⟩
        intro hk
        exact hnd.1 (hb ▸ hk ▸ List.mem_map_of_mem key h2)
    · next hb =>
      rcases List.mem_cons.mp hb2 with h1 | h2
      · exact Or.inl ⟨by rw [h1]; exact List.mem_cons_self b rest, by rw [h1]; exact hb⟩
      · rcases ih hnd.2 b2 h2 with h3 | h4 | h5
        · exact Or.inl ⟨List.mem_cons_of_mem b h3.1, h3.2⟩
        · obtain ⟨b0, hb0, hk0, he0⟩ := h4
          exact Or.inr (Or.inl ⟨b0, List.mem_cons_of_mem b hb0, hk0, he0⟩)
        · refine Or.inr (Or.inr ⟨?_, h5.2⟩)
          simp only [List.map_cons, List.mem_cons]
          rintro (h6 | h7)
          · exact hb h6.symm
          · exact h5.1 h7

/-- What a fold of upserts computes, proved once for both aggregation
stages: keys stay duplicate-free, exactly the keys of the processed items
are present, and each entry's accumulator is the exact sum of the weights
of the items carrying its key. -/
theorem foldl_upsertBy_conservation {ι β κ : Type} [DecidableEq κ]
    (key : β → κ) (μ : β → HasFrequency) (w : ι → HasFrequency)
    (ik : ι → κ) (f : ι → β → β) (z : ι → β)
    (hk : ∀ i b, key (f i b) = key b) (hkz : ∀ i, key (z i) = ik i)
    (hμ : ∀ i b, μ (f i b) = (μ b).add_trip_counts (w i)) (hμz : ∀ i, μ (z i) = zeroFreq)
    (items : List ι) :
    ((items.foldl (fun acc i => upsertBy key (ik i) (f i) (z i) acc) []).map key).Nodup ∧
    (∀ k, k ∈ (items.foldl (fun acc i => upsertBy key (ik i) (f i) (z i) acc) []).map key ↔
      ∃ i ∈ items, ik i = k) ∧
    (∀ b ∈ items.foldl (fun acc i => upsertBy key (ik i) (f i) (z i) acc) [],
      μ b = sumFreq ((items.filter (fun i => decide (ik i = key b))).map w)) := by
  induction items using List.reverseRecOn with
  | nil => simp
  | append_singleton init i ih =>
    obtain ⟨ihnd, ihmem, ihfreq⟩ := ih
    have hfold : (init ++ [i]).foldl (fun acc i => upsertBy key (ik i) (f i) (z i) acc) [] =
        upsertBy key (ik i) (f i) (z i)
          (init.foldl (fun acc i => upsertBy key (ik i) (f i) (z i) acc) []) := by
      rw [List.foldl_append]
      rfl
    refine ⟨?_, ?_, ?_⟩
    · rw [hfold]
      exact upsertBy_nodup_keys key (ik i) (f i) (z i) (hk i) (hkz i) _ ihnd
    · intro k
      rw [hfold, upsertBy_mem_keys key (ik i) (f i) (z i) (hk i) (hkz i) _ k]
      constructor
      · rintro (h1 | h2)
        · obtain ⟨i2, hi2, hik⟩ := (ihmem k).mp h1
          exact ⟨i2, List.mem_append_left _ hi2, hik⟩
        · exact ⟨i, List.mem_append_right _ (List.mem_singleton.mpr rfl), h2.symm⟩
      · rintro ⟨i2, hi2, hik⟩
        rcases List.mem_append.mp hi2 with h3 | h4
        · exact Or.inl ((ihmem k).mpr ⟨i2, h3, hik⟩)
        · rw [List.mem_singleton.mp h4] at hik
          exact Or.inr hik.symm
    · intro b hb
      rw [hfold] at hb
      rcases upsertBy_mem_char key (ik i) (f i) (z i) _ ihnd b hb with h1 | h2 | h3
      · have hne : (decide (ik i = key b)) = false := by
          simp only [decide_eq_false_iff_not]
          exact fun hh => h1.2 hh.symm
        rw [List.filter_append, List.filter_cons_of_neg (by simp [hne]), List.filter_nil,
          List.append_nil]
        exact ihfreq b h1.1
      · obtain ⟨b0, hb0, hkb0, hbe⟩ := h2
        have hkey : key b = key b0 := by rw [hbe, hk]
        rw [hkey, hbe, hμ]
        rw [List.filter_append, List.filter_cons_of_pos (by simp [hkb0]), List.filter_nil,
          List.map_append, List.map_cons, List.map_nil, sumFreq_append_singleton]
        congr 1
        exact ihfreq b0 hb0
      · have hkey : key b = ik i := by rw [h3.2, hk, hkz]
        have habsent : ∀ i2 ∈ init, ¬(ik i2 = key b) := by
          intro i2 hi2 hik
          exact h3.1 ((ihmem (ik i)).mpr ⟨i2, hi2, hik.trans hkey⟩)
        have hflt : init.filter (fun i2 => decide (ik i2 = key b)) = [] :=
          List.filter_eq_nil_iff.mpr (fun i2 hi2 => by
            simp only [decide_eq_true_eq]
            exact habsent i2 hi2)
        have hpos : (decide (ik i = key b)) = true := by
          simp only [decide_eq_true_eq]
          exact hkey.symm
        rw [List.filter_append, hflt, List.filter_cons_of_pos (by simp [hpos]),
          List.filter_nil, List.nil_append, List.map_cons, List.map_nil]
        rw [h3.2, hμ, hμz, zeroFreq_add]
        show w i = sumFreq [w i]
        rw [show sumFreq [w i] = zeroFreq.add_trip_counts (w i) from rfl, zeroFreq_add]

/-- `insertStory` is an upsert keyed by route id, updating with
`absorbStory` and initializing with a fresh `ExtendedRoute`. -/
theorem insertStory_eq_upsertBy (stops_near_stations : List (Nat × StationAndDistance))
    (st : ScoredRouteStory) (acc : List ExtendedRoute) :
    insertStory stops_near_stations st acc =
      upsertBy (fun er => er.route.route_id) st.route.route_id
        (fun er => absorbStory stops_near_stations er st)
        (ExtendedRoute.mk st.route ⟨0, 0⟩ []) acc := by
  induction acc with
  | nil => rfl
  | cons a rest ih =>
    simp only [insertStory, upsertBy, ih]

/-- The key of the (stop, station) aggregate an entry is stored under. -/
def aggKey (s : StopAndStation) : Nat × Nat := (s.stop_id, s.station_id)

/-- `insertAgg` is an upsert keyed by (stop, station), updating with
`addRouteAtKey` and initializing with a fresh `StopAndStation`. -/
theorem insertAgg_eq_upsertBy (er : ExtendedRoute) (kv : (Nat × Nat) × Rat)
    (acc : List StopAndStation) :
    insertAgg er kv acc =
      upsertBy aggKey kv.1 (addRouteAtKey er kv)
        (StopAndStation.mk kv.1.1 kv.1.2 [] ⟨0, 0⟩ 0) acc := by
  induction acc with
  | nil => rfl
  | cons a rest ih =>
    simp only [insertAgg, upsertBy, ih, aggKey]

/-- The stage-6 grouping fold, before normalization. -/
def groupedRoutes (stops_near_stations : List (Nat × StationAndDistance))
    (stories : List ScoredRouteStory) : List ExtendedRoute :=
  stories.foldl (fun acc st => insertStory stops_near_stations st acc) []

/-- What the stage-6 grouping computes for the accumulators: route ids
are duplicate-free, exactly the story route ids appear, and each route's
accumulator is the exact sum of its member stories' accumulators. -/
theorem groupedRoutes_conservation (stops_near_stations : List (Nat × StationAndDistance))
    (stories : List ScoredRouteStory) :
    ((groupedRoutes stops_near_stations stories).map (fun er => er.route.route_id)).Nodup ∧
    (∀ k, k ∈ (groupedRoutes stops_near_stations stories).map (fun er => er.route.route_id) ↔
      ∃ st ∈ stories, st.route.route_id = k) ∧
    (∀ er ∈ groupedRoutes stops_near_stations stories,
      er.freq = sumFreq ((stories.filter
        (fun st => decide (st.route.route_id = er.route.route_id))).map ScoredRouteStory.freq)) := by
  have hfun : (fun (acc : List ExtendedRoute) (st : ScoredRouteStory) =>
      insertStory stops_near_stations st acc) =
      (fun acc st => upsertBy (fun er => er.route.route_id) st.route.route_id
        (fun er => absorbStory stops_near_stations er st)
        (ExtendedRoute.mk st.route ⟨0, 0⟩ []) acc) :=
    funext fun acc => funext fun st => insertStory_eq_upsertBy stops_near_stations st acc
  unfold groupedRoutes
  rw [hfun]
  refine foldl_upsertBy_conservation (fun er => er.route.route_id) ExtendedRoute.freq
    ScoredRouteStory.freq (fun st => st.route.route_id)
    (fun st er => absorbStory stops_near_stations er st)
    (fun st => ExtendedRoute.mk st.route ⟨0, 0⟩ [])
    ?_ ?_ ?_ ?_ stories
  · intro i b
    rfl
  · intro i
    rfl
  · intro i b
    rfl
  · intro i
    rfl

/-- `divideTT` changes neither the accumulator, nor the route, nor the
set of (stop, station) keys. -/
theorem divideTT_preserves (er : ExtendedRoute) :
    (divideTT er).freq = er.freq ∧ (divideTT er).route = er.route ∧
    (divideTT er).stops_to_station_to_travel_time.map Prod.fst =
      er.stops_to_station_to_travel_time.map Prod.fst := by
  refine ⟨rfl, rfl, ?_⟩
  simp [divideTT, List.map_map, Function.comp]

/-- `updateTT` is an upsert keyed by the pair key, adding `v` to the
stored value and starting from the default 0. -/
theorem updateTT_eq_upsertBy (m : List ((Nat × Nat) × Rat)) (k : Nat × Nat) (v : Rat) :
    updateTT m k v =
      upsertBy Prod.fst k (fun p => (p.1, p.2 + v)) (k, 0) m := by
  induction m with
  | nil =>
    simp [updateTT, upsertBy]
  | cons p rest ih =>
    simp only [updateTT, upsertBy, ih]

/-- `updateTT` keeps the key list duplicate-free. -/
theorem updateTT_keys_nodup (m : List ((Nat × Nat) × Rat)) (k : Nat × Nat) (v : Rat)
    (hm : (m.map Prod.fst).Nodup) : ((updateTT m k v).map Prod.fst).Nodup := by
  rw [updateTT_eq_upsertBy]
  exact upsertBy_nodup_keys Prod.fst k (fun p => (p.1, p.2 + v)) (k, 0)
    (fun b => rfl) rfl m hm

/-- Any fold of `updateTT` accumulations keeps the key list
duplicate-free. -/
theorem foldl_updateTT_keys_nodup {γ : Type} (kf : γ → Nat × Nat) (vf : γ → Rat) :
    ∀ (l : List γ) (m : List ((Nat × Nat) × Rat)), (m.map Prod.fst).Nodup →
      ((l.foldl (fun m x => updateTT m (kf x) (vf x)) m).map Prod.fst).Nodup := by
  intro l
  induction l with
  | nil =>
    intro m hm
    simpa using hm
  | cons x rest ih =>
    intro m hm
    exact ih _ (updateTT_keys_nodup m (kf x) (vf x) hm)

/-- `absorbStory` keeps the travel-time map's key list duplicate-free. -/
theorem absorbStory_keys_nodup (stops_near_stations : List (Nat × StationAndDistance))
    (er : ExtendedRoute) (st : ScoredRouteStory)
    (h : (er.stops_to_station_to_travel_time.map Prod.fst).Nodup) :
    ((absorbStory stops_near_stations er st).stops_to_station_to_travel_time.map
      Prod.fst).Nodup :=
  foldl_updateTT_keys_nodup
    (fun pr => (pr.1.stop_id, stationIdOf stops_near_stations pr.2.stop_id))
    (fun pr => (st.freq.total_trips : Rat) * (travelTime pr : Rat))
    st.stop_and_station er.stops_to_station_to_travel_time h

/-- Every route map built by `insertStory` has duplicate-free keys. -/
theorem insertStory_keys_nodup (stops_near_stations : List (Nat × StationAndDistance))
    (st : ScoredRouteStory) :
    ∀ acc : List ExtendedRoute,
      (∀ er ∈ acc, (er.stops_to_station_to_travel_time.map Prod.fst).Nodup) →
      ∀ er ∈ insertStory stops_near_stations st acc,
        (er.stops_to_station_to_travel_time.map Prod.fst).Nodup := by
  intro acc
  induction acc with
  | nil =>
    intro _ er her
    simp only [insertStory, List.mem_singleton] at her
    rw [her]
    exact absorbStory_keys_nodup stops_near_stations _ st (by simp)
  | cons a rest ih =>
    intro hacc er her
    simp only [insertStory] at her
    split at her
    · rcases List.mem_cons.mp her with h1 | h2
      · rw [h1]
        exact absorbStory_keys_nodup stops_near_stations a st
          (hacc a (List.mem_cons_self a rest))
      · exact hacc er (List.mem_cons_of_mem a h2)
    · rcases List.mem_cons.mp her with h1 | h2
      · rw [h1]
        exact hacc a (List.mem_cons_self a rest)
      · exact ih (fun x hx => hacc x (List.mem_cons_of_mem a hx)) er h2

/-- Every extended route produced by stage 6 has duplicate-free
(stop, station) keys. -/
theorem route_stops_and_stations_keys_nodup
    (stops_near_stations : List (Nat × StationAndDistance))
    (stories : List ScoredRouteStory) :
    ∀ er ∈ route_stops_and_stations stops_near_stations stories,
      (er.stops_to_station_to_travel_time.map Prod.fst).Nodup := by
  have hfold : ∀ (l : List ScoredRouteStory) (acc : List ExtendedRoute),
      (∀ er ∈ acc, (er.stops_to_station_to_travel_time.map Prod.fst).Nodup) →
      ∀ er ∈ l.foldl (fun acc st => insertStory stops_near_stations st acc) acc,
        (er.stops_to_station_to_travel_time.map Prod.fst).Nodup := by
    intro l
    induction l with
    | nil =>
      intro acc hacc
      simpa using hacc
    | cons st rest ih =>
      intro acc hacc er her
      exact ih _ (insertStory_keys_nodup stops_near_stations st acc hacc) er her
  intro er her
  unfold route_stops_and_stations at her
  obtain ⟨er0, her0, hdiv⟩ := List.mem_map.mp her
  rw [← hdiv, (divideTT_preserves er0).2.2]
  exact hfold stories [] (by simp) er0 her0

/-- Whether a route's travel-time map contains the (stop, station) key
(the condition for the route to contribute to that aggregate in stage 7). -/
def hasKey (er : ExtendedRoute) (k : Nat × Nat) : Bool :=
  decide (k ∈ er.stops_to_station_to_travel_time.map Prod.fst)

/-- The nested stage-7 fold equals a flat fold over all
(route, map-entry) pairs. -/
theorem aggregate_fold_eq_flat (ers : List ExtendedRoute) :
    ∀ acc : List StopAndStation,
      ers.foldl (fun acc er => er.stops_to_station_to_travel_time.foldl
          (fun acc2 kv => insertAgg er kv acc2) acc) acc =
      (ers.flatMap (fun er => er.stops_to_station_to_travel_time.map
          (fun kv => (er, kv)))).foldl
        (fun acc p => insertAgg p.1 p.2 acc) acc := by
  induction ers with
  | nil =>
    intro acc
    rfl
  | cons er rest ih =>
    intro acc
    simp only [List.foldl_cons, List.flatMap_cons, List.foldl_append, List.foldl_map]
    exact ih _

/-- The flat stage-7 fold conserves accumulators pair-by-pair. -/
theorem flat_agg_freq (ers : List ExtendedRoute) :
    ∀ a ∈ (ers.flatMap (fun er => er.stops_to_station_to_travel_time.map
        (fun kv => (er, kv)))).foldl (fun acc p => insertAgg p.1 p.2 acc) [],
      a.freq = sumFreq (((ers.flatMap (fun er => er.stops_to_station_to_travel_time.map
          (fun kv => (er, kv)))).filter
        (fun p => decide (p.2.1 = aggKey a))).map (fun p => p.1.freq)) := by
  have hfun : (fun (acc : List StopAndStation) (p : ExtendedRoute × ((Nat × Nat) × Rat)) =>
      insertAgg p.1 p.2 acc) =
      (fun (acc : List StopAndStation) (p : ExtendedRoute × ((Nat × Nat) × Rat)) =>
        upsertBy aggKey p.2.1 (addRouteAtKey p.1 p.2)
          (StopAndStation.mk p.2.1.1 p.2.1.2 [] ⟨0, 0⟩ 0) acc) :=
    funext fun acc => funext fun p => insertAgg_eq_upsertBy p.1 p.2 acc
  rw [hfun]
  refine (foldl_upsertBy_conservation aggKey StopAndStation.freq
    (fun p : ExtendedRoute × ((Nat × Nat) × Rat) => p.1.freq)
    (fun p : ExtendedRoute × ((Nat × Nat) × Rat) => p.2.1)
    (fun p : ExtendedRoute × ((Nat × Nat) × Rat) => addRouteAtKey p.1 p.2)
    (fun p : ExtendedRoute × ((Nat × Nat) × Rat) =>
      StopAndStation.mk p.2.1.1 p.2.1.2 [] ⟨0, 0⟩ 0)
    ?_ ?_ ?_ ?_ _).2.2
  · intro i b
    rfl
  · intro i
    exact Prod.mk.eta
  · intro i b
    rfl
  · intro i
    rfl

/-- Filtering an association list with duplicate-free keys by one key and
mapping to a constant yields that constant once if the key is present. -/
theorem nodup_filter_key_map (m : List ((Nat × Nat) × Rat)) (k : Nat × Nat)
    (c : HasFrequency) (hm : (m.map Prod.fst).Nodup) :
    ((m.filter (fun kv => decide (kv.1 = k))).map (fun _ => c)) =
      if k ∈ m.map Prod.fst then [c] else [] := by
  induction m with
  | nil => simp
  | cons p rest ih =>
    simp only [List.map_cons, List.nodup_cons] at hm
    by_cases hpk : p.1 = k
    · rw [List.filter_cons_of_pos (by simp [hpk])]
      have hkrest : k ∉ rest.map Prod.fst := fun hk => hm.1 (hpk ▸ hk)
      have hrest : rest.filter (fun kv => decide (kv.1 = k)) = [] :=
        List.filter_eq_nil_iff.mpr (fun kv hkv => by
          simp only [decide_eq_true_eq]
          intro he
          exact hkrest (he ▸ List.mem_map_of_mem Prod.fst hkv))
      simp [hrest, hpk]
    · rw [List.filter_cons_of_neg (by simp [hpk])]
      rw [ih hm.2, List.map_cons]
      have hcond : (k ∈ p.1 :: rest.map Prod.fst) ↔ k ∈ rest.map Prod.fst := by
        constructor
        · intro hh
          rcases List.mem_cons.mp hh with h1 | h2
          · exact absurd h1.symm hpk
          · exact h2
        · exact fun hh => List.mem_cons_of_mem p.1 hh
      by_cases hk : k ∈ rest.map Prod.fst
      · rw [if_pos hk, if_pos (hcond.mpr hk)]
      · rw [if_neg hk, if_neg (fun hh => hk (hcond.mp hh))]

/-- Per (stop, station) key, the flattened pair list filtered to that key
carries exactly one accumulator per route whose map contains the key. -/
theorem pairs_filter_eq_routes_filter (ers : List ExtendedRoute) (k : Nat × Nat)
    (h : ∀ er ∈ ers, (er.stops_to_station_to_travel_time.map Prod.fst).Nodup) :
    ((ers.flatMap (fun er => er.stops_to_station_to_travel_time.map
        (fun kv => (er, kv)))).filter
      (fun p => decide (p.2.1 = k))).map (fun p => p.1.freq) =
      (ers.filter (fun er => hasKey er k)).map ExtendedRoute.freq := by
  induction ers with
  | nil => rfl
  | cons er rest ih =>
    simp only [List.flatMap_cons, List.filter_append, List.map_append]
    rw [ih (fun x hx => h x (List.mem_cons_of_mem er hx))]
    rw [List.filter_map, List.map_map]
    have hcomp : ((fun p : ExtendedRoute × ((Nat × Nat) × Rat) => p.1.freq) ∘
        (fun kv => (er, kv))) = (fun kv : (Nat × Nat) × Rat => er.freq) := rfl
    have hfilt : ((fun p : ExtendedRoute × ((Nat × Nat) × Rat) => decide (p.2.1 = k)) ∘
        (fun kv => (er, kv))) = (fun kv : (Nat × Nat) × Rat => decide (kv.1 = k)) := rfl
    rw [hcomp, hfilt, nodup_filter_key_map _ k er.freq (h er (List.mem_cons_self er rest))]
    by_cases hk : k ∈ er.stops_to_station_to_travel_time.map Prod.fst
    · rw [if_pos hk, List.filter_cons_of_pos (by simp [hasKey, hk]), List.map_cons]
      simp
    · rw [if_neg hk, List.filter_cons_of_neg (by simp [hasKey, hk]), List.nil_append]

/-- Stage 7 conserves accumulators route-by-route: each aggregate's
accumulator is the exact sum of the accumulators of the routes whose
travel-time map contains its (stop, station) key. -/
theorem aggregate_by_stop_conservation (ers : List ExtendedRoute)
    (h : ∀ er ∈ ers, (er.stops_to_station_to_travel_time.map Prod.fst).Nodup) :
    ∀ a ∈ aggregate_by_stop ers,
      a.freq = sumFreq ((ers.filter (fun er => hasKey er (a.stop_id, a.station_id))).map
        ExtendedRoute.freq) := by
  intro a ha
  unfold aggregate_by_stop at ha
  obtain ⟨a0, ha0, hmapa⟩ := List.mem_map.mp ha
  rw [aggregate_fold_eq_flat ers []] at ha0
  have hfreq := flat_agg_freq ers a0 ha0
  have hfa : a.freq = a0.freq := by rw [← hmapa]
  have hkey : aggKey a = aggKey a0 := by
    rw [← hmapa]
    rfl
  rw [hfa, hfreq, pairs_filter_eq_routes_filter ers (aggKey a0) h, ← hkey]
  rfl

/-- Claim C5: weight conservation at both aggregation levels — each
route's (weekday, weekend) accumulator is the exact pairwise sum of its
member stories' accumulators, and each (stop, station) aggregate's
accumulator is the exact pairwise sum of the accumulators of its
contributing routes. -/
theorem trip_count_weight_conservation
    (stops_near_stations : List (Nat × StationAndDistance))
    (stories : List ScoredRouteStory) :
    (∀ er ∈ route_stops_and_stations stops_near_stations stories,
      er.freq = sumFreq ((stories.filter
        (fun st => decide (st.route.route_id = er.route.route_id))).map
        ScoredRouteStory.freq)) ∧
    (∀ a ∈ aggregate_by_stop (route_stops_and_stations stops_near_stations stories),
      a.freq = sumFreq (((route_stops_and_stations stops_near_stations stories).filter
        (fun er => hasKey er (a.stop_id, a.station_id))).map ExtendedRoute.freq)) := by
  constructor
  · intro er her
    unfold route_stops_and_stations at her
    obtain ⟨er0, her0, hdiv⟩ := List.mem_map.mp her
    have h := (groupedRoutes_conservation stops_near_stations stories).2.2 er0 her0
    rw [← hdiv, (divideTT_preserves er0).1, (divideTT_preserves er0).2.1]
    exact h
  · exact aggregate_by_stop_conservation _
      (route_stops_and_stations_keys_nodup stops_near_stations stories)

/-- A first story on route 7 for the C5 witness. -/
def c5Story1 : ScoredRouteStory := ⟨1, ⟨7, "51"⟩, ⟨2, 1⟩, [(stopA, stopS)]⟩

/-- A second story on the same route for the C5 witness. -/
def c5Story2 : ScoredRouteStory := ⟨2, ⟨7, "51"⟩, ⟨3, 0⟩, [(stopA, stopS)]⟩

/-- Witness for C5 at a concrete input: the single route built from the
two stories carries the pairwise sum of their accumulators. -/
theorem trip_count_weight_conservation_witness :
    ((route_stops_and_stations exNear [c5Story1, c5Story2]).headD default).freq =
      sumFreq (([c5Story1, c5Story2].filter (fun st => decide (st.route.route_id =
        ((route_stops_and_stations exNear [c5Story1, c5Story2]).headD
          default).route.route_id))).map ScoredRouteStory.freq) := by
  have key := (trip_count_weight_conservation exNear [c5Story1, c5Story2]).1
  have hne : route_stops_and_stations exNear [c5Story1, c5Story2] ≠ [] := by decide
  cases h : route_stops_and_stations exNear [c5Story1, c5Story2] with
  | nil => exact absurd h hne
  | cons x xs => exact key x (by rw [h]; exact List.mem_cons_self x xs)

/-! ### The downstream Result Filter (claims C6 and C7) -/

/-- One row of the exported `station_access.txt` table as the filter
reads it back: the four columns the filter inspects, typed as the filter
parses them (`int(...)` on the id, time and count columns), plus the
remaining columns it only passes through. -/
structure AccessRecord where
  stop_id : String
  station_id : Int
  travel_time : Int
  weekday_trips : Nat
  other_columns : String
deriving DecidableEq, Repr, Inhabited

/-- The `stop_to_record` dict update of the nearest-only pass: replace
the first entry of this stop id when the new row's travel time is
strictly smaller, keep it otherwise, and append the stop id as a new key
when absent. -/
def insertNearest (r : AccessRecord) : List (String × AccessRecord) →
    List (String × AccessRecord)
  | [] => [(r.stop_id, r)]
  | (k, cur) :: rest =>
    if k = r.stop_id then
      (if r.travel_time < cur.travel_time then (k, r) else (k, cur)) :: rest
    else (k, cur) :: insertNearest r rest

/-- The nearest-only pass (`station_access.py` lines 349-355): fold the
rows into `stop_to_record` and take the dict's values. -/
def onlyNearestStation (records : List AccessRecord) : List AccessRecord :=
  (records.foldl (fun acc r => insertNearest r acc) []).map Prod.snd

/-- `filter_station_access_results`, the pure filtering core: the five
passes in the fixed order of the source, with `-1` disabling the time
threshold, empty include/exclude sets disabled (Python truthiness of
`None` or an empty set), and the weekday-trip threshold last. -/
def filter_station_access_results (records : List AccessRecord)
    (max_time_difference_from_station : Int)
    (stations_to_include stations_to_exclude : List Int)
    (only_nearest_station : Bool) (min_weekday_trips : Int) : List AccessRecord :=
  let r1 := if max_time_difference_from_station ≠ -1
    then records.filter (fun r => r.travel_time ≤ max_time_difference_from_station)
    else records
  let r2 := if ¬ stations_to_include.isEmpty
    then r1.filter (fun r => stations_to_include.contains r.station_id)
    else r1
  let r3 := if ¬ stations_to_exclude.isEmpty
    then r2.filter (fun r => !stations_to_exclude.contains r.station_id)
    else r2
  let r4 := if only_nearest_station then onlyNearestStation r3 else r3
  r4.filter (fun r => min_weekday_trips ≤ (r.weekday_trips : Int))

/-- Claim C7: with the time threshold disabled by the `-1` sentinel, no
include or exclude set, nearest-only off and a zero trip threshold, the
filter returns its input unchanged, in order. -/
theorem filter_station_access_results_identity (records : List AccessRecord) :
    filter_station_access_results records (-1) [] [] false 0 = records := by
  unfold filter_station_access_results
  simp [List.filter_eq_self]

/-- Rows kept by `insertNearest` keep carrying their own stop id as key. -/
theorem insertNearest_wf (r : AccessRecord) :
    ∀ acc : List (String × AccessRecord), (∀ p ∈ acc, p.2.stop_id = p.1) →
      ∀ p ∈ insertNearest r acc, p.2.stop_id = p.1 := by
  intro acc
  induction acc with
  | nil =>
    intro _ p hp
    simp only [insertNearest, List.mem_singleton] at hp
    rw [hp]
  | cons q rest ih =>
    intro hacc p hp
    obtain ⟨k2, cur⟩ := q
    simp only [insertNearest] at hp
    split at hp
    · next hq =>
      rcases List.mem_cons.mp hp with h1 | h2
      · rw [h1]
        split
        · exact hq.symm
        · exact hacc (k2, cur) (List.mem_cons_self (k2, cur) rest)
      · exact hacc p (List.mem_cons_of_mem (k2, cur) h2)
    · rcases List.mem_cons.mp hp with h1 | h2
      · rw [h1]
        exact hacc (k2, cur) (List.mem_cons_self (k2, cur) rest)
      · exact ih (fun x hx => hacc x (List.mem_cons_of_mem (k2, cur) hx)) p h2

/-- The key list after an insert: unchanged when the stop id was already
a key, extended by it at the end otherwise. -/
theorem insertNearest_keys (r : AccessRecord) :
    ∀ acc : List (String × AccessRecord),
      (insertNearest r acc).map Prod.fst =
        if r.stop_id ∈ acc.map Prod.fst then acc.map Prod.fst
        else acc.map Prod.fst ++ [r.stop_id] := by
  intro acc
  induction acc with
  | nil => simp [insertNearest]
  | cons q rest ih =>
    obtain ⟨k2, cur⟩ := q
    simp only [insertNearest, List.map_cons]
    split
    · next hq =>
      have hmem : r.stop_id ∈ k2 :: rest.map Prod.fst := List.mem_cons.mpr (Or.inl hq.symm)
      rw [if_pos hmem]
      split <;> simp
    · next hq =>
      rw [List.map_cons, ih]
      by_cases hmem : r.stop_id ∈ rest.map Prod.fst
      · rw [if_pos hmem, if_pos (List.mem_cons.mpr (Or.inr hmem))]
      · rw [if_neg hmem, if_neg ?_, List.cons_append]
        intro hh
        rcases List.mem_cons.mp hh with h1 | h2
        · exact hq h1.symm
        · exact hmem h2

/-- One step of the per-stop minimum: keep the stored row unless the new
row's travel time is strictly smaller. -/
def nearestStep (o : Option AccessRecord) (r : AccessRecord) : Option AccessRecord :=
  match o with
  | none => some r
  | some b => if r.travel_time < b.travel_time then some r else some b

/-- The value the dict stores under key `k` (first entry wins, matching
the traversal of `insertNearest`). -/
def valueFor (k : String) : List (String × AccessRecord) → Option AccessRecord
  | [] => none
  | (k2, v) :: rest => if k2 = k then some v else valueFor k rest

/-- What one insert does to the stored value of each key. -/
theorem insertNearest_valueFor (r : AccessRecord) (k : String) :
    ∀ acc : List (String × AccessRecord),
      valueFor k (insertNearest r acc) =
        if k = r.stop_id then nearestStep (valueFor r.stop_id acc) r
        else valueFor k acc := by
  intro acc
  induction acc with
  | nil =>
    by_cases hk : k = r.stop_id
    · simp [insertNearest, valueFor, nearestStep, hk]
    · have hrk : ¬ r.stop_id = k := fun h => hk h.symm
      simp [insertNearest, valueFor, nearestStep, hk, hrk]
  | cons q rest ih =>
    obtain ⟨k2, cur⟩ := q
    by_cases hq : k2 = r.stop_id
    · simp only [insertNearest, if_pos hq]
      by_cases hk : k = r.stop_id
      · rw [if_pos hk]
        have hv : valueFor r.stop_id ((k2, cur) :: rest) = some cur := by
          simp [valueFor, hq]
        rw [hv]
        have hk2 : k2 = k := hq.trans hk.symm
        split
        · next htt =>
          simp [valueFor, hk2, nearestStep, htt]
        · next htt =>
          simp [valueFor, hk2, nearestStep, htt]
      · rw [if_neg hk]
        have hk2 : ¬ k2 = k := fun h => hk (h ▸ hq)
        split <;> simp [valueFor, hk2]
    · simp only [insertNearest, if_neg hq]
      by_cases hk2 : k2 = k
      · have hcond : ¬ k = r.stop_id := fun h => hq (hk2.trans h)
        simp only [valueFor, if_pos hk2, if_neg hcond]
      · simp only [valueFor, if_neg hk2]
        rw [ih]
        by_cases hk : k = r.stop_id
        · rw [if_pos hk, if_pos hk, if_neg hq]
        · rw [if_neg hk, if_neg hk]

/-- The stored value of `k` after the whole fold is the per-group
minimum fold of the rows with stop id `k`. -/
theorem foldl_insertNearest_valueFor (k : String) :
    ∀ (rs : List AccessRecord) (acc : List (String × AccessRecord)),
      valueFor k (rs.foldl (fun acc r => insertNearest r acc) acc) =
        (rs.filter (fun r => decide (r.stop_id = k))).foldl nearestStep (valueFor k acc) := by
  intro rs
  induction rs with
  | nil =>
    intro acc
    rfl
  | cons r rest ih =>
    intro acc
    simp only [List.foldl_cons]
    rw [ih (insertNearest r acc)]
    by_cases hk : r.stop_id = k
    · rw [List.filter_cons_of_pos (by simp [hk]), List.foldl_cons]
      congr 1
      rw [insertNearest_valueFor, if_pos hk.symm, hk]
    · rw [List.filter_cons_of_neg (by simp [hk])]
      congr 1
      rw [insertNearest_valueFor, if_neg (fun h => hk h.symm)]

/-- Under dict wellformedness, filtering the stored values by stop id
yields exactly the stored value of that key. -/
theorem values_filter_eq_valueFor (k : String) :
    ∀ acc : List (String × AccessRecord), (∀ p ∈ acc, p.2.stop_id = p.1) →
      (acc.map Prod.fst).Nodup →
      (acc.map Prod.snd).filter (fun x => decide (x.stop_id = k)) =
        (valueFor k acc).toList := by
  intro acc
  induction acc with
  | nil =>
    intro _ _
    rfl
  | cons q rest ih =>
    intro hwf hnd
    obtain ⟨k2, v⟩ := q
    have hv : v.stop_id = k2 := hwf (k2, v) (List.mem_cons_self (k2, v) rest)
    simp only [List.map_cons, List.nodup_cons] at hnd
    by_cases hk : k2 = k
    · rw [List.map_cons, List.filter_cons_of_pos (by simp [hv, hk])]
      have hrest : (rest.map Prod.snd).filter (fun x => decide (x.stop_id = k)) = [] := by
        apply List.filter_eq_nil_iff.mpr
        intro x hx
        simp only [decide_eq_true_eq]
        obtain ⟨p, hp, hpx⟩ := List.mem_map.mp hx
        intro hxk
        apply hnd.1
        have hp1 : p.1 = k2 := by
          rw [← hwf p (List.mem_cons_of_mem (k2, v) hp), hpx, hxk]
          exact hk.symm
        exact hp1 ▸ List.mem_map_of_mem Prod.fst hp
      rw [hrest]
      simp [valueFor, hk]
    · rw [List.map_cons, List.filter_cons_of_neg (by simp [hv, hk])]
      rw [ih (fun p hp => hwf p (List.mem_cons_of_mem (k2, v) hp)) hnd.2]
      simp [valueFor, hk]

/-- The nearest-only fold keeps the dict wellformed: every value carries
its own key, and keys stay duplicate-free. -/
theorem foldl_insertNearest_wf_nodup :
    ∀ (rs : List AccessRecord) (acc : List (String × AccessRecord)),
      (∀ p ∈ acc, p.2.stop_id = p.1) → (acc.map Prod.fst).Nodup →
      (∀ p ∈ rs.foldl (fun acc r => insertNearest r acc) acc, p.2.stop_id = p.1) ∧
      ((rs.foldl (fun acc r => insertNearest r acc) acc).map Prod.fst).Nodup := by
  intro rs
  induction rs with
  | nil =>
    intro acc h1 h2
    exact ⟨h1, h2⟩
  | cons r rest ih =>
    intro acc h1 h2
    apply ih
    · exact insertNearest_wf r acc h1
    · rw [insertNearest_keys]
      split
      · exact h2
      · next hmem =>
        refine List.Nodup.append h2 (List.nodup_singleton _) ?_
        intro a ha hb
        rw [List.mem_singleton] at hb
        exact hmem (hb ▸ ha)

/-- Folding `nearestStep` over a group yields the first row attaining the
minimum travel time: strictly smaller than every earlier row, no larger
than every later row. -/
theorem nearestStep_foldl_first_min :
    ∀ (l : List AccessRecord) (b : AccessRecord),
      ∃ m pre post, l.foldl nearestStep (some b) = some m ∧
        b :: l = pre ++ m :: post ∧
        (∀ x ∈ pre, m.travel_time < x.travel_time) ∧
        (∀ x ∈ post, m.travel_time ≤ x.travel_time) := by
  intro l
  induction l with
  | nil =>
    intro b
    exact ⟨b, [], [], rfl, rfl, by simp, by simp⟩
  | cons a l2 ih =>
    intro b
    simp only [List.foldl_cons]
    by_cases htt : a.travel_time < b.travel_time
    · rw [show nearestStep (some b) a = some a from by simp [nearestStep, htt]]
      obtain ⟨m, pre, post, hfold, hdec, hpre, hpost⟩ := ih a
      refine ⟨m, b :: pre, post, hfold, by rw [List.cons_append, ← hdec], ?_, hpost⟩
      intro x hx
      rcases List.mem_cons.mp hx with h1 | h2
      · have hma : m.travel_time ≤ a.travel_time := by
          rcases pre with _ | ⟨p0, pre2⟩
          · have h := hdec
            simp only [List.nil_append] at h
            injection h with hh _
            exact le_of_eq (by rw [hh])
          · have h := hdec
            simp only [List.cons_append] at h
            injection h with hh _
            have hlt := hpre p0 (List.mem_cons_self p0 pre2)
            rw [← hh] at hlt
            exact le_of_lt hlt
        rw [h1]
        exact lt_of_le_of_lt hma htt
      · exact hpre x h2
    · rw [show nearestStep (some b) a = some b from by simp [nearestStep, htt]]
      obtain ⟨m, pre, post, hfold, hdec, hpre, hpost⟩ := ih b
      rcases pre with _ | ⟨p0, pre2⟩
      · have h := hdec
        simp only [List.nil_append] at h
        injection h with hh hpost2
        refine ⟨m, [], a :: post, hfold, ?_, by simp, ?_⟩
        · rw [List.nil_append, ← hh, ← hpost2]
        · intro x hx
          rcases List.mem_cons.mp hx with h1 | h2
          · rw [h1, ← hh]
            exact le_of_not_lt htt
          · exact hpost x h2
      · have h := hdec
        simp only [List.cons_append] at h
        injection h with hh htail
        refine ⟨m, b :: a :: pre2, post, hfold, ?_, ?_, hpost⟩
        · simp only [List.cons_append]
          rw [← htail]
        · intro x hx
          have hmb : m.travel_time < b.travel_time := by
            rw [hh]
            exact hpre p0 (List.mem_cons_self p0 pre2)
          rcases List.mem_cons.mp hx with h1 | h2
          · rw [h1]
            exact hmb
          · rcases List.mem_cons.mp h2 with h3 | h4
            · rw [h3]
              exact lt_of_lt_of_le hmb (le_of_not_lt htt)
            · exact hpre x (List.mem_cons_of_mem p0 h4)

/-- Claim C6, amended: for every stop id appearing in the input rows the
nearest-only pass retains exactly one row — a row of that stop attaining
the minimum travel time — and among tied minima it is the FIRST-seen row
under the traversal order that is retained (the dict replaces its entry
only on strictly smaller travel time), not the last-seen one. -/
theorem nearest_only_first_min_selection (records : List AccessRecord) (k : String)
    (hk : ∃ r ∈ records, r.stop_id = k) :
    ∃ m pre post,
      (onlyNearestStation records).filter (fun x => decide (x.stop_id = k)) = [m] ∧
      records.filter (fun x => decide (x.stop_id = k)) = pre ++ m :: post ∧
      (∀ x ∈ pre, m.travel_time < x.travel_time) ∧
      (∀ x ∈ post, m.travel_time ≤ x.travel_time) := by
  obtain ⟨r0, hr0, hrk⟩ := hk
  have hgrp : r0 ∈ records.filter (fun x => decide (x.stop_id = k)) :=
    List.mem_filter.mpr ⟨hr0, by simpa using hrk⟩
  obtain ⟨g0, grest, hgcons⟩ := List.exists_cons_of_ne_nil (List.ne_nil_of_mem hgrp)
  have hwn := foldl_insertNearest_wf_nodup records [] (by simp) (by simp)
  have hval := values_filter_eq_valueFor k _ hwn.1 hwn.2
  have hfold := foldl_insertNearest_valueFor k records []
  unfold onlyNearestStation
  rw [hval, hfold, hgcons, List.foldl_cons]
  rw [show nearestStep (valueFor k []) g0 = some g0 from rfl]
  obtain ⟨m, pre, post, hf, hd, hp1, hp2⟩ := nearestStep_foldl_first_min grest g0
  refine ⟨m, pre, post, ?_, hd, hp1, hp2⟩
  rw [hf]
  rfl

/-- A first row for the C6 counterexample (tie on travel time 5). -/
def tieRow1 : AccessRecord := ⟨"s20", 1, 5, 3, "first"⟩

/-- A second, distinct row of the same stop with the same travel time. -/
def tieRow2 : AccessRecord := ⟨"s20", 1, 5, 3, "second"⟩

/-- Counterexample to C6 as stated: on two rows of one stop tied at the
minimum travel time, the nearest-only pass (alone and inside the full
filter) retains the FIRST-seen row, not the last-seen one the claim
specifies. -/
theorem nearest_only_tie_keeps_first :
    onlyNearestStation [tieRow1, tieRow2] = [tieRow1] ∧ tieRow1 ≠ tieRow2 ∧
    filter_station_access_results [tieRow1, tieRow2] (-1) [] [] true 0 = [tieRow1] := by
  refine ⟨rfl, by decide, by decide⟩

/-- A far row of stop s9 for the C6 witness. -/
def nearRow1 : AccessRecord := ⟨"s9", 1, 10, 3, "far"⟩

/-- A near row of stop s9 for the C6 witness. -/
def nearRow2 : AccessRecord := ⟨"s9", 1, 5, 3, "near"⟩

/-- Witness for the amended C6 at a concrete input: rows with travel
times 10 and 5 for one stop. -/
theorem nearest_only_first_min_selection_witness :
    ∃ m pre post,
      (onlyNearestStation [nearRow1, nearRow2]).filter
        (fun x => decide (x.stop_id = "s9")) = [m] ∧
      [nearRow1, nearRow2].filter (fun x => decide (x.stop_id = "s9")) =
        pre ++ m :: post ∧
      (∀ x ∈ pre, m.travel_time < x.travel_time) ∧
      (∀ x ∈ post, m.travel_time ≤ x.travel_time) :=
  nearest_only_first_min_selection [nearRow1, nearRow2] "s9"
    ⟨nearRow1, List.mem_cons_self nearRow1 [nearRow2], rfl⟩

/-! ### Claim C8: stage-1 membership -/

/-- Claim C8: a distance-table entry survives stage 1 exactly when its
distance is strictly below the threshold and, unless `include_trains`,
its stop is not its own nearest station; surviving entries are unchanged. -/
theorem find_station_stops_membership (station_distance : List (Nat × StationAndDistance))
    (station_stop_distance : Int) (include_trains : Bool)
    (p : Nat × StationAndDistance) :
    p ∈ find_station_stops station_distance station_stop_distance include_trains ↔
      p ∈ station_distance ∧ p.2.distance < station_stop_distance ∧
        (include_trains = false → p.1 ≠ p.2.station_id) := by
  unfold find_station_stops
  cases include_trains with
  | true =>
    simp [List.mem_filter, and_assoc]
  | false =>
    simp only [Bool.false_eq_true, if_false, List.mem_filter, decide_eq_true_eq]
    constructor
    · rintro ⟨⟨h1, h2⟩, h3⟩
      exact ⟨h1, h2, fun _ => h3⟩
    · rintro ⟨h1, h2, h3⟩
      exact ⟨⟨h1, h2⟩, h3 trivial⟩

/-! ### Claim C9: export formatting -/

/-- The fields of a GTFS stop used by the export (`self.gtfs.stops`). -/
structure GtfsStop where
  stop_code : String
  stop_lat : String
  stop_lon : String
  stop_name : String
  parent_station : String
deriving DecidableEq, Repr, Inhabited

/-- One row of `station_access.txt` as the export writes it. -/
structure ExportedRow where
  stop_id : Nat
  station_id : Nat
  stop_code : String
  station_code : String
  travel_time : Int
  weekday_trips : Nat
  weekend_trips : Nat
  latitude : String
  longitude : String
  station_name : String
  line_numbers : String
  route_ids : String
  parent_stop : String
deriving DecidableEq, Repr, Inhabited

/-- `StationAccessFinder.export_stop_and_station` for one aggregate:
the row dict of lines 307-321.  `int(x // 60)` on the float travel time
is the floor of the exact rational divided by 60; `sorted(set(...))` is
the sorted deduplicated list; `route_ids` joins in aggregation order. -/
def export_stop_and_station (stops : Nat → GtfsStop) (s : StopAndStation) : ExportedRow :=
  { stop_id := s.stop_id
    station_id := s.station_id
    stop_code := (stops s.stop_id).stop_code
    station_code := (stops s.station_id).stop_code
    travel_time := Int.floor (s.travel_time / 60)
    weekday_trips := s.freq.weekday_trips
    weekend_trips := s.freq.weekend_trips
    latitude := (stops s.stop_id).stop_lat
    longitude := (stops s.stop_id).stop_lon
    station_name := (stops s.station_id).stop_name
    line_numbers := " ".intercalate
      ((s.routes.map Route.line_number).dedup.insertionSort (fun a b => a ≤ b))
    route_ids := " ".intercalate (s.routes.map (fun r => toString r.route_id))
    parent_stop := (stops s.stop_id).parent_station }

/-- Claim C9: the exported `travel_time` is the travel time in seconds
floor-divided by 60; `line_numbers` is the space-join of a sorted,
duplicate-free list holding exactly the contributing routes' line
numbers; `route_ids` is the space-join of the contributing route ids in
aggregation order, neither de-duplicated nor sorted. -/
theorem export_stop_and_station_formatting (stops : Nat → GtfsStop) (s : StopAndStation) :
    (export_stop_and_station stops s).travel_time = Int.floor (s.travel_time / 60) ∧
    (∃ l : List String,
      (export_stop_and_station stops s).line_numbers = " ".intercalate l ∧
      l.Sorted (fun a b => a ≤ b) ∧ l.Nodup ∧
      (∀ x, x ∈ l ↔ x ∈ s.routes.map Route.line_number)) ∧
    (export_stop_and_station stops s).route_ids =
      " ".intercalate (s.routes.map (fun r => toString r.route_id)) := by
  refine ⟨rfl, ⟨(s.routes.map Route.line_number).dedup.insertionSort (fun a b => a ≤ b),
    rfl, ?_, ?_, ?_⟩, rfl⟩
  · exact List.sorted_insertionSort _ _
  · exact ((List.perm_insertionSort _ _).nodup_iff).mpr (List.nodup_dedup _)
  · intro x
    rw [(List.perm_insertionSort _ _).mem_iff, List.mem_dedup]
